import Mathlib

set_option maxHeartbeats 1000000
set_option linter.unusedSectionVars false

namespace DbSpec

/-- Claim-relevant fragment of the BSON value universe stored in documents:
null, integers, strings and booleans.  Identities (`_id`) are `Value`s; the
spec requires them to be totally ordered, which `Value.ltB` below provides
(BSON type-rank order, then the in-type order). -/
inductive Value
  | vNull
  | vInt (n : Int)
  | vStr (s : String)
  | vBool (b : Bool)
deriving DecidableEq, Repr

namespace Value

/-- BSON cross-type comparison rank: null < numbers < strings < booleans. -/
def rank : Value → Nat
  | vNull => 0
  | vInt _ => 1
  | vStr _ => 2
  | vBool _ => 3

/-- Strict total order on values: by type rank, then within the type. -/
def ltB : Value → Value → Bool
  | vInt a, vInt b => decide (a < b)
  | vStr a, vStr b => decide (a < b)
  | vBool a, vBool b => decide (a < b)
  | a, b => decide (a.rank < b.rank)

/-- Python truthiness of a value (None, 0, empty string and False are falsy). -/
def truthy : Value → Bool
  | vNull => false
  | vInt n => decide (n ≠ 0)
  | vStr s => decide (s ≠ "")
  | vBool b => b

theorem ltB_irrefl (a : Value) : ltB a a = false := by
  cases a <;> simp [ltB, rank]

theorem ltB_asymm {a b : Value} (h : ltB a b = true) : ltB b a = false := by
  cases a <;> cases b <;>
    simp only [ltB, rank, decide_eq_true_eq, decide_eq_false_iff_not] at * <;>
    first
      | omega
      | exact not_lt.mpr (le_of_lt h)

theorem ltB_trans {a b c : Value} (hab : ltB a b = true) (hbc : ltB b c = true) :
    ltB a c = true := by
  cases a <;> cases b <;> cases c <;>
    simp only [ltB, rank, decide_eq_true_eq] at * <;>
    first
      | omega
      | exact lt_trans hab hbc

theorem ltB_total (a b : Value) : ltB a b = true ∨ a = b ∨ ltB b a = true := by
  cases a <;> cases b <;>
    simp only [ltB, rank, decide_eq_true_eq, vInt.injEq, vStr.injEq,
      vBool.injEq] <;>
    first
      | decide
      | exact lt_trichotomy _ _
      | (left; decide)
      | (right; right; decide)

end Value

/-- A document: an ordered association list of field name to value, mirroring
a Python dict / BSON document (keys unique in well-formed documents). -/
abbrev Document : Type := List (String × Value)

/-- Python `item.get(k)`: the value bound to `k`, or None (`vNull`) when the
key is absent.  A stored BSON null also reads back as None, so absent and
null coincide, exactly as in `item.get('_id') != None`. -/
def pyGet (d : Document) (k : String) : Value :=
  match d.lookup k with
  | some v => v
  | none => Value.vNull

/-- Whether the key is present in the document at all. -/
def hasKey (d : Document) (k : String) : Bool :=
  (d.lookup k).isSome

/-- The document's identity (`_id`) value. -/
def docId (d : Document) : Value := pyGet d "_id"

/-- The keys of a document, in order. -/
def docKeys (d : Document) : List String := d.map Prod.fst

/-- `$set` of a single field: replace the first binding of `k` in place, or
append the binding when `k` is absent (MongoDB field-update semantics). -/
def setField : Document → String → Value → Document
  | [], k, v => [(k, v)]
  | (k', v') :: rest, k, v =>
      if k' = k then (k, v) :: rest else (k', v') :: setField rest k v

/-- `$set` of a whole update document: set each of its fields in turn,
leaving every field not named by the update document untouched. -/
def applySet (doc : Document) (upd : Document) : Document :=
  upd.foldl (fun acc kv => setField acc kv.1 kv.2) doc

/-- A MongoDB collection: the list of stored documents. -/
abbrev Store : Type := List Document

/-- The bulk-mutation operations `write`/`delete` build (pymongo's
`UpdateOne({'_id': id}, {'$set': doc}, upsert=True)`, `InsertOne(doc)` and
`DeleteOne({'_id': id})`). -/
inductive MutationOp
  | updateOne (id : Value) (upd : Document)
  | insertOne (doc : Document)
  | deleteOne (id : Value)
deriving DecidableEq, Repr

/-- `UpdateOne({'_id': id}, {'$set': upd}, upsert=True)`: `$set` onto the
first document whose `_id` equals `id`; when none matches, insert the
document built from the equality filter plus the `$set` fields. -/
def applyUpdateOne : Store → Value → Document → Store
  | [], id, upd => [applySet [("_id", id)] upd]
  | doc :: rest, id, upd =>
      if docId doc = id then applySet doc upd :: rest
      else doc :: applyUpdateOne rest id upd

/-- Modelled from the spec (for the refinement comparison only, not from
the source): an Upsert that "replaces all fields of the matched document on
match, inserts if absent" — on match the stored document becomes exactly
the update document. -/
def applyUpsertReplaceAll : Store → Value → Document → Store
  | [], id, upd => [applySet [("_id", id)] upd]
  | doc :: rest, id, upd =>
      if docId doc = id then upd :: rest
      else doc :: applyUpsertReplaceAll rest id upd

/-- `DeleteOne({'_id': id})`: remove the first document whose `_id` is `id`. -/
def applyDeleteOne : Store → Value → Store
  | [], _ => []
  | doc :: rest, id =>
      if docId doc = id then rest else doc :: applyDeleteOne rest id

/-- Apply one mutation operation to the collection.  `InsertOne` appends the
document (the client-generated ObjectId for id-less documents is outside the
model; no claim concerns the stored shape of inserted id-less documents). -/
def applyOp (s : Store) : MutationOp → Store
  | .updateOne id upd => applyUpdateOne s id upd
  | .insertOne doc => s ++ [doc]
  | .deleteOne id => applyDeleteOne s id

/-- Apply a bulk of operations in order.  The code submits the batch with
`ordered=False`; in this single-client model only the aggregate effect is
observable, which sequential application captures. -/
def applyOps (s : Store) (ops : List MutationOp) : Store :=
  ops.foldl applyOp s

/-- The operation list built by `AsyncMongoDB.write` (mongo.py line 149):
`UpdateOne({'_id': item['_id']}, {'$set': item}, upsert=True)` when
`item.get('_id') != None`, else `InsertOne(item)`. -/
def buildWriteOps (documents : List Document) : List MutationOp :=
  documents.map fun item =>
    if pyGet item "_id" ≠ Value.vNull then .updateOne (pyGet item "_id") item
    else .insertOne item

/-- The operation list built by `AsyncMongoDB.delete` (mongo.py line 173):
`DeleteOne({'_id': i['_id']}) for i in documents if i.get('_id')` — the guard
is Python truthiness of the `_id` value. -/
def buildDeleteOps (documents : List Document) : List MutationOp :=
  (documents.filter fun i => Value.truthy (pyGet i "_id")).map
    fun i => .deleteOne (pyGet i "_id")

/-- `AsyncMongoDB.write`: empty input returns success with no effect;
otherwise the built batch is applied (server-side bulk failures are external
collaborators, so the success path is modelled). -/
def write (s : Store) (documents : List Document) : Bool × Store :=
  if documents = [] then (true, s)
  else (true, applyOps s (buildWriteOps documents))

/-- `AsyncMongoDB.delete`: when no document passes the truthy-`_id` guard the
operation list is empty and the code returns success with no effect. -/
def deleteDocs (s : Store) (documents : List Document) : Bool × Store :=
  let ops := buildDeleteOps documents
  if ops = [] then (true, s)
  else (true, applyOps s ops)

/-- The first stored document whose `_id` equals `id`. -/
def findDocById : Store → Value → Option Document
  | [], _ => none
  | doc :: rest, id => if docId doc = id then some doc else findDocById rest id

/-- Well-formed collection: `_id` values are pairwise distinct (the external
uniqueness invariant of §3 of the spec) and every stored document carries an
`_id` key (guaranteed by the server for stored documents). -/
def storeWF (s : Store) : Prop :=
  (s.map docId).Nodup ∧ ∀ d ∈ s, hasKey d "_id" = true

instance (s : Store) : Decidable (storeWF s) := by
  unfold storeWF; infer_instance

/-- Documents compared by their `_id`, the sort key of the paginator
(`cursor.sort('_id', pymongo.ASCENDING)`). -/
def docLt (d e : Document) : Bool := Value.ltB (docId d) (docId e)

/-- Insert into a list sorted by the strict comparison `lt`, keeping every
element strictly smaller than `a` before it. -/
def insertSorted {α : Type} (lt : α → α → Bool) (a : α) : List α → List α
  | [] => [a]
  | b :: bs => if lt b a then b :: insertSorted lt a bs else a :: b :: bs

/-- Insertion sort by the strict comparison `lt`; models the server-side
ascending sort of a result set. -/
def sortL {α : Type} (lt : α → α → Bool) : List α → List α
  | [] => []
  | a :: as => insertSorted lt a (sortL lt as)

/-- MongoDB inclusion projection built by `dict.fromkeys(return_fields, 1)`:
keep exactly the named fields, plus `_id`, which an inclusion projection
always returns unless explicitly excluded. -/
def project (fields : List String) (d : Document) : Document :=
  d.filter fun kv => fields.contains kv.1 || kv.1 == "_id"

/-- `cursor.limit(n)`: `n = 0` means no limit (MongoDB semantics).  Negative
limits are unreachable from the modelled call sites. -/
def applyLimit (n : Int) (l : List Document) : List Document :=
  if n ≤ 0 then l else l.take n.toNat

/-- The document stream of `collect.find(filters, projection)
.limit(cache_size)` with an optional ascending `_id` sort, evaluated against
a static collection: filter, sort, limit, then project. -/
def findDocs (store : Store) (p : Document → Bool) (sortQ : Bool)
    (limit : Int) (proj : Option (List String)) : List Document :=
  let matched := store.filter p
  let sorted := if sortQ then sortL docLt matched else matched
  let limited := applyLimit limit sorted
  match proj with
  | none => limited
  | some fields => limited.map (project fields)

/-- The filter document used by the loop: the caller's filter on the first
round, `{'$and': [{'_id': {'$gt': page_id}}, filter]}` afterwards. -/
def mkFilters (f : Document → Bool) : Option Value → Document → Bool
  | none => f
  | some b => fun d => Value.ltB b (docId d) && f d

/-- The `return_cnt` argument: the default string `'all'` or an int. -/
inductive RetCnt
  | all
  | num (n : Int)
deriving DecidableEq, Repr

/-- Line 212 of mongo.py:
`return_cnt = total_cnt if return_cnt == 'all' or 0 > return_cnt > total_cnt
else return_cnt`.  The chained comparison means `0 > n ∧ n > total`. -/
def resolveRetCnt (rc : RetCnt) (total : Int) : Int :=
  match rc with
  | .all => total
  | .num n => if 0 > n ∧ n > total then total else n

/-- `get_count`: `count_documents(filter)` for a non-empty filter, else
`estimated_document_count()`; on a static collection both equal the number
of matching documents (the estimate is exact between mutations). -/
def countDocs (store : Store) (f : Document → Bool) : Int :=
  (store.filter f).length

/-- How a `getter` traversal ends: normal exhaustion, an
`UnboundLocalError` from reading `page_id` before assignment, or model fuel
running out (the code would still be looping). -/
inductive GOutcome
  | ok
  | unboundLocal
  | fuelOut
deriving DecidableEq, Repr

/-- The pages yielded by a traversal together with how it ended. -/
structure GResult where
  pages : List (List Document)
  outcome : GOutcome
deriving DecidableEq, Repr

/-- The loop-carried locals of `getter`'s inner `async for`: `fetch_cnt`,
`item_list`, `page_id` (`none` while still unassigned) and the pages
yielded so far. -/
structure PState where
  fetchCnt : Int
  buf : List Document
  pageId : Option Value
  pages : List (List Document)
deriving DecidableEq, Repr

/-- Lines 226-233 of mongo.py: append each cursor item to `item_list`,
count it, and when the buffer reaches `page_size` record the last `_id`,
yield the buffer and clear it. -/
def procItems (P : Int) : List Document → PState → PState
  | [], st => st
  | d :: rest, st =>
      let buf' := st.buf ++ [d]
      let fc' := st.fetchCnt + 1
      if (buf'.length : Int) = P then
        procItems P rest ⟨fc', [], some (docId d), st.pages ++ [buf']⟩
      else
        procItems P rest ⟨fc', buf', st.pageId, st.pages⟩

/-- The locals of the `while True` loop of `getter`. -/
structure GState where
  fetchCnt : Int
  itemList : List Document
  lb : Option Value
  pageId : Option Value
  cacheSize : Int
  pages : List (List Document)

/-- Lines 217-243 of mongo.py, one `while True` iteration per fuel unit:
shrink `cache_size` on the final page, fetch, buffer into pages, yield a
trailing partial buffer without clearing it, log (reading `page_id`, an
`UnboundLocalError` when it was never assigned), stop once
`fetch_cnt >= return_cnt`, else restrict the filter to
`_id > page_id` (also reading `page_id`) and repeat. -/
def getterLoop (store : Store) (f : Document → Bool)
    (proj : Option (List String)) (P rcnt : Int) (sortQ logSwitch : Bool) :
    Nat → GState → GResult
  | 0, st => ⟨st.pages, .fuelOut⟩
  | fuel+1, st =>
      let cache :=
        if st.fetchCnt + P > rcnt then rcnt - st.fetchCnt else st.cacheSize
      let batch := findDocs store (mkFilters f st.lb) sortQ cache proj
      let ps := procItems P batch ⟨st.fetchCnt, st.itemList, st.pageId, st.pages⟩
      let pages' := if ps.buf = [] then ps.pages else ps.pages ++ [ps.buf]
      if logSwitch && ps.pageId.isNone then ⟨pages', .unboundLocal⟩
      else if ps.fetchCnt ≥ rcnt then ⟨pages', .ok⟩
      else
        match ps.pageId with
        | none => ⟨pages', .unboundLocal⟩
        | some b =>
            getterLoop store f proj P rcnt sortQ logSwitch fuel
              ⟨ps.fetchCnt, ps.buf, some b, some b, cache, pages'⟩

/-- `AsyncMongoDB.getter` (mongo.py lines 188-243) over a static collection:
count, early return on zero matches, resolve `return_cnt`, build the
projection and initial `cache_size`, then run the paging loop. -/
def getter (store : Store) (f : Document → Bool) (returnFields : List String)
    (rc : RetCnt) (P : Int) (sortQ logSwitch : Bool) (fuel : Nat) : GResult :=
  let total : Int := countDocs store f
  if total = 0 then ⟨[], .ok⟩
  else
    let rcnt := resolveRetCnt rc total
    let proj := if returnFields = [] then none else some returnFields
    let cacheInit := if rcnt < P * 50 then rcnt else if sortQ then P * 50 else rcnt
    getterLoop store f proj P rcnt sortQ logSwitch fuel ⟨0, [], none, none, cacheInit, []⟩

section RedisModel

variable {α : Type} [LinearOrder α] [DecidableEq α]

/-- A Redis sorted set: members with integer scores.  Scores are modelled as
integers (the claims only exercise integral scores); members come from any
linearly ordered type, standing for byte strings under lexicographic
order. -/
abbrev ZSet (β : Type) : Type := List (β × Int)

/-- `ZSCORE`: the score of a member, if present. -/
def zscore (z : ZSet α) (m : α) : Option Int :=
  (z.find? fun p => decide (p.1 = m)).map Prod.snd

/-- Well-formed sorted set: member names are pairwise distinct. -/
def zsetWF (z : ZSet α) : Prop := (z.map Prod.fst).Nodup

instance (z : ZSet α) : Decidable (zsetWF z) := by
  unfold zsetWF; infer_instance

/-- The order `ZRANGEBYSCORE` returns entries in: ascending score,
ties broken by ascending member. -/
def zpairLt (a b : α × Int) : Bool :=
  decide (a.2 < b.2) || (decide (a.2 = b.2) && decide (a.1 < b.1))

/-- `ZRANGEBYSCORE key min max WITHSCORES`: the entries whose score lies in
the inclusive interval, in ascending order. -/
def zrangebyscoreWS (z : ZSet α) (mn mx : Int) : ZSet α :=
  sortL zpairLt (z.filter fun p => decide (mn ≤ p.2) && decide (p.2 ≤ mx))

/-- The optional `LIMIT 0 num` clause of the Lua scripts (`num ~= ''`):
keep the first `num` entries; a negative count returns everything. -/
def applyNum (num : Option Int) (l : ZSet α) : ZSet α :=
  match num with
  | none => l
  | some n => if n < 0 then l else l.take n.toNat

/-- `ZINCRBY key delta m`: add `delta` to the member's score, creating the
member at score `delta` when absent. -/
def zincrbyZ : ZSet α → Int → α → ZSet α
  | [], delta, m => [(m, delta)]
  | p :: rest, delta, m =>
      if p.1 = m then (m, p.2 + delta) :: rest else p :: zincrbyZ rest delta m

/-- `ZREM key m`: remove the member. -/
def zremZ : ZSet α → α → ZSet α
  | [], _ => []
  | p :: rest, m => if p.1 = m then rest else p :: zremZ rest m

/-- The Lua script of `AsyncRedisDB.zset_increase_by_score` (redis.py lines
79-105): one atomic unit that reads the range (optionally limited), then
`ZINCRBY`s each fetched member, returning the fetched member list. -/
def zset_increase_by_score (z : ZSet α) (mn mx delta : Int)
    (num : Option Int) : List α × ZSet α :=
  let datas := applyNum num (zrangebyscoreWS z mn mx)
  let members := datas.map Prod.fst
  (members, members.foldl (fun acc m => zincrbyZ acc delta m) z)

/-- The Lua script of `AsyncRedisDB.zset_del_by_score` (redis.py lines
107-132): one atomic unit that reads the range (optionally limited), then
`ZREM`s each fetched member, returning the fetched member list. -/
def zset_del_by_score (z : ZSet α) (mn mx : Int)
    (num : Option Int) : List α × ZSet α :=
  let datas := applyNum num (zrangebyscoreWS z mn mx)
  let members := datas.map Prod.fst
  (members, members.foldl zremZ z)

/-- The specification of the atomic increment-range script, stated against
the pre-call sorted set `z`: the returned members are exactly those whose
pre-call score lies in `[mn, mx]` (capped to the first `num` in ascending
order when a limit is given), listed without repetition in ascending
pre-call score order; afterwards each returned member's score is its old
score plus `delta` and every other member's score is untouched. -/
def IncrementRangeSpec (z : ZSet α) (mn mx delta : Int)
    (num : Option Int) : Prop :=
  (num = none → ∀ m, m ∈ (zset_increase_by_score z mn mx delta num).1 ↔
      ∃ s, zscore z m = some s ∧ mn ≤ s ∧ s ≤ mx)
  ∧ (∀ n, num = some n → 0 ≤ n →
      (zset_increase_by_score z mn mx delta num).1 =
        ((zrangebyscoreWS z mn mx).map Prod.fst).take n.toNat)
  ∧ (zset_increase_by_score z mn mx delta num).1.Nodup
  ∧ (zset_increase_by_score z mn mx delta num).1.Pairwise
      (fun m1 m2 => ∀ s1 s2, zscore z m1 = some s1 →
        zscore z m2 = some s2 → s1 ≤ s2)
  ∧ (∀ m ∈ (zset_increase_by_score z mn mx delta num).1, ∀ s,
      zscore z m = some s →
      zscore (zset_increase_by_score z mn mx delta num).2 m = some (s + delta))
  ∧ (∀ m, m ∉ (zset_increase_by_score z mn mx delta num).1 →
      zscore (zset_increase_by_score z mn mx delta num).2 m = zscore z m)

/-- The specification of the atomic delete-range script, stated against the
pre-call sorted set `z`: the returned members are exactly those whose
pre-call score lies in `[mn, mx]` (capped to the first `num` in ascending
order when a limit is given), listed without repetition in ascending
pre-call score order; afterwards each returned member is gone from the set
and every other member keeps its membership and score. -/
def DeleteRangeSpec (z : ZSet α) (mn mx : Int) (num : Option Int) : Prop :=
  (num = none → ∀ m, m ∈ (zset_del_by_score z mn mx num).1 ↔
      ∃ s, zscore z m = some s ∧ mn ≤ s ∧ s ≤ mx)
  ∧ (∀ n, num = some n → 0 ≤ n →
      (zset_del_by_score z mn mx num).1 =
        ((zrangebyscoreWS z mn mx).map Prod.fst).take n.toNat)
  ∧ (zset_del_by_score z mn mx num).1.Nodup
  ∧ (zset_del_by_score z mn mx num).1.Pairwise
      (fun m1 m2 => ∀ s1 s2, zscore z m1 = some s1 →
        zscore z m2 = some s2 → s1 ≤ s2)
  ∧ (∀ m ∈ (zset_del_by_score z mn mx num).1,
      zscore (zset_del_by_score z mn mx num).2 m = none)
  ∧ (∀ m, m ∉ (zset_del_by_score z mn mx num).1 →
      zscore (zset_del_by_score z mn mx num).2 m = zscore z m)

end RedisModel

/-- The semantics of the mutation `write` builds for one document: with a
present, non-None identity it is an Upsert that `$set`s the document's
fields onto the first matched document (fields the update does not name are
preserved) and inserts the filter-plus-`$set` document when no identity
matches; with no identity (absent or None) it is a plain Insert. -/
def WriteBuildSpec (s : Store) (d : Document) (pre post : List Document)
    (old : Document) : Prop :=
  (pyGet d "_id" ≠ Value.vNull → s = pre ++ old :: post →
    (∀ e ∈ pre, docId e ≠ pyGet d "_id") → docId old = pyGet d "_id" →
    (write s [d]).2 = pre ++ applySet old d :: post
    ∧ (∀ k v, d.lookup k = some v → (applySet old d).lookup k = some v)
    ∧ (∀ k, d.lookup k = none → (applySet old d).lookup k = old.lookup k))
  ∧ (pyGet d "_id" ≠ Value.vNull → (∀ e ∈ s, docId e ≠ pyGet d "_id") →
      (write s [d]).2 = s ++ [applySet [("_id", pyGet d "_id")] d])
  ∧ (pyGet d "_id" = Value.vNull → (write s [d]).2 = s ++ [d])

/-- Idempotence of writing one identified document twice: the second call
is a no-op on the store, exactly one stored document carries the identity,
that document holds the written fields, and the document count is unchanged
by the second call. -/
def WriteIdemSpec (s : Store) (d : Document) (X : Value) : Prop :=
  (write (write s [d]).2 [d]).2 = (write s [d]).2
  ∧ (write s [d]).2.countP (fun doc => decide (docId doc = X)) = 1
  ∧ (write (write s [d]).2 [d]).2.length = (write s [d]).2.length
  ∧ ∃ doc, findDocById (write (write s [d]).2 [d]).2 X = some doc ∧
      ∀ k v, d.lookup k = some v → doc.lookup k = some v

/-- The projection specification of claim C8: every document in every page
yielded by the traversal still carries its `_id` field. -/
def ProjectionKeepsIdSpec (store : Store) (f : Document → Bool)
    (fields : List String) (rc : RetCnt) (P : Int) (sortQ logSwitch : Bool)
    (fuel : Nat) : Prop :=
  ∀ p ∈ (getter store f fields rc P sortQ logSwitch fuel).pages,
    ∀ d ∈ p, hasKey d "_id" = true

/-- The paginate-exactness specification of claim C1, stated for a full
(`return_cnt='all'`) sorted traversal: the yielded pages concatenate to a
permutation of the filtered collection (each identity exactly once, count
equal to `count(F)`), all pages except the last are exactly `page_size`
long, every page is non-empty and at most `page_size` long, and the
traversal does not run out of loop fuel. -/
def PaginateExactSpec (store : List Document) (f : Document → Bool)
    (P : Int) (logSwitch : Bool) (fuel : Nat) : Prop :=
  (getter store f [] RetCnt.all P true logSwitch fuel).pages.flatten.Perm
    (store.filter f)
  ∧ ((getter store f [] RetCnt.all P true logSwitch
      fuel).pages.flatten.map docId).Nodup
  ∧ (getter store f [] RetCnt.all P true logSwitch
      fuel).pages.flatten.length = (store.filter f).length
  ∧ (∀ p ∈ (getter store f [] RetCnt.all P true logSwitch
      fuel).pages.dropLast, (p.length : Int) = P)
  ∧ (∀ p ∈ (getter store f [] RetCnt.all P true logSwitch fuel).pages,
      0 < p.length ∧ (p.length : Int) ≤ P)
  ∧ (getter store f [] RetCnt.all P true logSwitch fuel).outcome ≠
      GOutcome.fuelOut


/- ------------------------------------------------------------------ -/
/- Sorting lemmas -/
/- ------------------------------------------------------------------ -/

theorem insertSorted_perm {α : Type} (lt : α → α → Bool) (a : α)
    (l : List α) : (insertSorted lt a l).Perm (a :: l) := by
  induction l with
  | nil => rfl
  | cons b bs ih =>
      simp only [insertSorted]
      by_cases h : lt b a = true
      · rw [if_pos h]
        exact (ih.cons b).trans (List.Perm.swap a b bs)
      · rw [if_neg h]

theorem sortL_perm {α : Type} (lt : α → α → Bool) (l : List α) :
    (sortL lt l).Perm l := by
  induction l with
  | nil => rfl
  | cons a as ih => exact (insertSorted_perm lt a (sortL lt as)).trans (ih.cons a)

theorem pairwise_insertSorted {α : Type} {lt : α → α → Bool}
    (hasymm : ∀ a b, lt a b = true → lt b a = false)
    (hnegtrans : ∀ a b c, lt a b = false → lt b c = false → lt a c = false)
    (a : α) {l : List α} (hl : l.Pairwise fun x y => lt y x = false) :
    (insertSorted lt a l).Pairwise fun x y => lt y x = false := by
  induction l with
  | nil => simp [insertSorted]
  | cons b bs ih =>
      rcases List.pairwise_cons.mp hl with ⟨hb, hbs⟩
      simp only [insertSorted]
      by_cases h : lt b a = true
      · rw [if_pos h]
        refine List.pairwise_cons.mpr ⟨?_, ih hbs⟩
        intro y hy
        rcases List.mem_cons.mp
            ((insertSorted_perm lt a bs).mem_iff.mp hy) with rfl | hyb
        · exact hasymm b y h
        · exact hb y hyb
      · rw [if_neg h]
        have h' : lt b a = false := by
          cases hba : lt b a with
          | false => rfl
          | true => exact absurd hba h
        refine List.pairwise_cons.mpr ⟨?_, hl⟩
        intro y hy
        rcases List.mem_cons.mp hy with rfl | hyb
        · exact h'
        · exact hnegtrans y b a (hb y hyb) h'

theorem sortL_pairwise {α : Type} {lt : α → α → Bool}
    (hasymm : ∀ a b, lt a b = true → lt b a = false)
    (hnegtrans : ∀ a b c, lt a b = false → lt b c = false → lt a c = false)
    (l : List α) :
    (sortL lt l).Pairwise fun x y => lt y x = false := by
  induction l with
  | nil => simp [sortL]
  | cons a as ih => exact pairwise_insertSorted hasymm hnegtrans a ih

theorem Value.ltB_negtrans {a b c : Value} (h1 : ltB a b = false)
    (h2 : ltB b c = false) : ltB a c = false := by
  cases hac : ltB a c with
  | false => rfl
  | true =>
      exfalso
      rcases ltB_total a b with h' | rfl | h'
      · simp [h'] at h1
      · simp [hac] at h2
      · have ht := ltB_trans h' hac
        simp [ht] at h2

theorem docLt_asymm (d e : Document) (h : docLt d e = true) :
    docLt e d = false := Value.ltB_asymm h

theorem docLt_negtrans (d e g : Document) (h1 : docLt d e = false)
    (h2 : docLt e g = false) : docLt d g = false :=
  Value.ltB_negtrans h1 h2

/-- Sortedness of the paginator's fetched batches: no inversion by `_id`. -/
theorem sortL_docLt_sorted (l : List Document) :
    (sortL docLt l).Pairwise fun d e => docLt e d = false :=
  sortL_pairwise docLt_asymm docLt_negtrans l

/-- With pairwise-distinct identities the sorted batch is a strict
ascending `_id` chain. -/
theorem sortL_docLt_strict {l : List Document}
    (hnd : (l.map docId).Nodup) :
    (sortL docLt l).Pairwise fun d e => docLt d e = true := by
  have hperm : (List.map docId (sortL docLt l)).Perm (List.map docId l) :=
    (sortL_perm docLt l).map docId
  have hnd' : ((sortL docLt l).map docId).Nodup :=
    (hperm.nodup_iff).mpr hnd
  have hne : (sortL docLt l).Pairwise fun d e => docId d ≠ docId e :=
    (List.pairwise_map).mp hnd'
  have hs := sortL_docLt_sorted l
  refine (hs.and hne).imp ?_
  rintro d e ⟨h1, h2⟩
  rcases Value.ltB_total (docId d) (docId e) with h | h | h
  · exact h
  · exact absurd h h2
  · rw [docLt] at h1; rw [h] at h1; exact absurd h1 (by simp)

/- ------------------------------------------------------------------ -/
/- Document and store lemmas -/
/- ------------------------------------------------------------------ -/

theorem lookup_cons (k' : String) (p : String × Value) (rest : Document) :
    List.lookup k' (p :: rest) = if k' = p.1 then some p.2 else
      List.lookup k' rest := by
  by_cases h : k' = p.1
  · subst h; simp [List.lookup]
  · simp [List.lookup, h, beq_eq_false_iff_ne.mpr h]

theorem pyGet_of_lookup_some {d : Document} {k : String} {v : Value}
    (h : d.lookup k = some v) : pyGet d k = v := by
  rw [pyGet, h]

theorem pyGet_of_lookup_none {d : Document} {k : String}
    (h : d.lookup k = none) : pyGet d k = Value.vNull := by
  rw [pyGet, h]

theorem lookup_eq_none_keys {d : Document} {k : String}
    (h : k ∉ d.map Prod.fst) : d.lookup k = none := by
  induction d with
  | nil => rfl
  | cons p rest ih =>
      rw [List.map_cons, List.mem_cons, not_or] at h
      rw [lookup_cons, if_neg h.1]
      exact ih h.2

theorem lookup_doc_eq_some_of_mem {d : Document} {k : String} {v : Value}
    (hnd : (d.map Prod.fst).Nodup) (h : (k, v) ∈ d) :
    d.lookup k = some v := by
  induction d with
  | nil => cases h
  | cons p rest ih =>
      rw [List.map_cons, List.nodup_cons] at hnd
      rw [lookup_cons]
      rcases List.mem_cons.mp h with rfl | hrest
      · rw [if_pos rfl]
      · by_cases h1 : k = p.1
        · exfalso
          refine hnd.1 ?_
          rw [← h1]
          exact List.mem_map.mpr ⟨(k, v), hrest, rfl⟩
        · rw [if_neg h1]
          exact ih hnd.2 hrest

theorem lookup_setField (doc : Document) (k : String) (v : Value)
    (k' : String) :
    (setField doc k v).lookup k' = if k' = k then some v else
      doc.lookup k' := by
  induction doc with
  | nil =>
      simp only [setField]
      by_cases h : k' = k
      · subst h; simp [List.lookup]
      · simp [List.lookup, h, beq_eq_false_iff_ne.mpr h]
  | cons p rest ih =>
      simp only [setField]
      by_cases h1 : p.1 = k
      · rw [if_pos h1, lookup_cons, lookup_cons]
        by_cases h : k' = k <;> simp_all
      · rw [if_neg h1, lookup_cons, ih, lookup_cons]
        by_cases h : k' = k <;> by_cases h2 : k' = p.1 <;> simp_all

theorem lookup_applySet_none {upd : Document} {k' : String}
    (h : upd.lookup k' = none) (doc : Document) :
    (applySet doc upd).lookup k' = doc.lookup k' := by
  induction upd generalizing doc with
  | nil => rfl
  | cons p rest ih =>
      rw [lookup_cons] at h
      by_cases h1 : k' = p.1
      · rw [if_pos h1] at h; cases h
      · rw [if_neg h1] at h
        simp only [applySet, List.foldl_cons]
        have hr := ih h (setField doc p.1 p.2)
        simp only [applySet] at hr
        rw [hr, lookup_setField, if_neg h1]

theorem lookup_applySet_some {upd : Document} {k : String} {v : Value}
    (hnd : (upd.map Prod.fst).Nodup) (h : upd.lookup k = some v)
    (doc : Document) : (applySet doc upd).lookup k = some v := by
  induction upd generalizing doc with
  | nil => cases h
  | cons p rest ih =>
      rw [List.map_cons, List.nodup_cons] at hnd
      rw [lookup_cons] at h
      simp only [applySet, List.foldl_cons]
      by_cases h1 : k = p.1
      · rw [if_pos h1] at h
        have hr : rest.lookup k = none :=
          lookup_eq_none_keys (by rw [h1]; exact hnd.1)
        have hn := lookup_applySet_none hr (setField doc p.1 p.2)
        simp only [applySet] at hn
        rw [hn, lookup_setField, if_pos h1]
        rw [Option.some_inj] at h
        rw [h]
      · rw [if_neg h1] at h
        exact ih hnd.2 h (setField doc p.1 p.2)

theorem setField_self {doc : Document} {k : String} {v : Value}
    (h : doc.lookup k = some v) : setField doc k v = doc := by
  induction doc with
  | nil => cases h
  | cons p rest ih =>
      rw [lookup_cons] at h
      simp only [setField]
      by_cases h1 : p.1 = k
      · rw [if_pos h1]
        rw [if_pos h1.symm] at h
        rw [Option.some_inj] at h
        rw [← h1, ← h, Prod.mk.eta]
      · have h2 : ¬(k = p.1) := fun he => h1 he.symm
        rw [if_neg h2] at h
        rw [if_neg h1, ih h]

theorem applySet_self {upd : Document} (doc : Document)
    (h : ∀ kv ∈ upd, doc.lookup kv.1 = some kv.2) :
    applySet doc upd = doc := by
  induction upd generalizing doc with
  | nil => rfl
  | cons p rest ih =>
      simp only [applySet, List.foldl_cons]
      rw [setField_self (h p (List.mem_cons_self p rest))]
      exact ih doc (fun kv hkv => h kv (List.mem_cons_of_mem p hkv))

theorem applySet_idem (doc : Document) {upd : Document}
    (hnd : (upd.map Prod.fst).Nodup) :
    applySet (applySet doc upd) upd = applySet doc upd := by
  refine applySet_self _ ?_
  intro kv hkv
  have hm : (kv.1, kv.2) ∈ upd := by rw [Prod.mk.eta]; exact hkv
  exact lookup_applySet_some hnd (lookup_doc_eq_some_of_mem hnd hm) doc

theorem store_decomp (s : Store) (id : Value) :
    (∀ e ∈ s, docId e ≠ id) ∨
    ∃ pre old post, s = pre ++ old :: post ∧
      (∀ e ∈ pre, docId e ≠ id) ∧ docId old = id := by
  induction s with
  | nil =>
      left; intro e he; cases he
  | cons doc rest ih =>
      by_cases h : docId doc = id
      · right
        exact ⟨[], doc, rest, rfl, fun e he => absurd he (List.not_mem_nil e), h⟩
      · rcases ih with h' | ⟨pre, old, post, rfl, hpre, hold⟩
        · left
          intro e he
          rcases List.mem_cons.mp he with rfl | he'
          · exact h
          · exact h' e he'
        · right
          refine ⟨doc :: pre, old, post, rfl, ?_, hold⟩
          intro e he
          rcases List.mem_cons.mp he with rfl | he'
          · exact h
          · exact hpre e he'

theorem applyUpdateOne_present (pre post : List Document) (old : Document)
    (id : Value) (upd : Document) (hpre : ∀ e ∈ pre, docId e ≠ id)
    (hold : docId old = id) :
    applyUpdateOne (pre ++ old :: post) id upd =
      pre ++ applySet old upd :: post := by
  induction pre with
  | nil => simp only [List.nil_append, applyUpdateOne, if_pos hold]
  | cons e pre' ih =>
      simp only [List.cons_append, applyUpdateOne, List.append_eq]
      rw [if_neg (hpre e (List.mem_cons_self e pre'))]
      rw [ih (fun e' he' => hpre e' (List.mem_cons_of_mem e he'))]

theorem applyUpdateOne_absent (s : Store) (id : Value) (upd : Document)
    (h : ∀ e ∈ s, docId e ≠ id) :
    applyUpdateOne s id upd = s ++ [applySet [("_id", id)] upd] := by
  induction s with
  | nil => rfl
  | cons doc rest ih =>
      simp only [applyUpdateOne, List.cons_append]
      rw [if_neg (h doc (List.mem_cons_self doc rest))]
      rw [ih (fun e he => h e (List.mem_cons_of_mem doc he))]

theorem findDocById_append_right (s t : Store) (id : Value)
    (h : ∀ e ∈ s, docId e ≠ id) :
    findDocById (s ++ t) id = findDocById t id := by
  induction s with
  | nil => rfl
  | cons doc rest ih =>
      simp only [List.cons_append, findDocById]
      rw [if_neg (h doc (List.mem_cons_self doc rest))]
      exact ih (fun e he => h e (List.mem_cons_of_mem doc he))

theorem write_single (s : Store) (d : Document)
    (hid : pyGet d "_id" ≠ Value.vNull) :
    (write s [d]).2 = applyUpdateOne s (pyGet d "_id") d := by
  simp [write, buildWriteOps, applyOps, applyOp, hid]

theorem write_single_insert (s : Store) (d : Document)
    (hid : pyGet d "_id" = Value.vNull) :
    (write s [d]).2 = s ++ [d] := by
  simp [write, buildWriteOps, applyOps, applyOp, hid]

/-- Claim C3 (amended): a document whose `_id` is present and non-None is
written as an Upsert with `$set` semantics — on match the named fields are
set and all other fields of the matched document are preserved; when no
document matches the identity, the filter-plus-`$set` document is inserted.
A document without an identity (absent or None `_id`) is written as an
Insert. -/
theorem write_build_semantics (s : Store) (d : Document)
    (pre post : List Document) (old : Document)
    (hknd : (d.map Prod.fst).Nodup) : WriteBuildSpec s d pre post old := by
  refine ⟨?_, ?_, ?_⟩
  · intro hid hdec hpre hold
    subst hdec
    refine ⟨?_, ?_, ?_⟩
    · rw [write_single _ _ hid]
      exact applyUpdateOne_present pre post old _ d hpre hold
    · intro k v h
      exact lookup_applySet_some hknd h old
    · intro k h
      exact lookup_applySet_none h old
  · intro hid habs
    rw [write_single _ _ hid]
    exact applyUpdateOne_absent s _ d habs
  · intro hid
    exact write_single_insert s d hid

/-- Counterexample to claim C3 as stated: upserting `{_id: 1, f: 3}` onto a
store holding `{_id: 1, f: 1, g: 2}` keeps the unnamed field `g`, so the
matched document's fields are not all replaced; the spec-modelled
replace-all upsert gives a different store. -/
theorem write_not_replace_all_cex :
    (write [[("_id", Value.vInt 1), ("f", Value.vInt 1), ("g", Value.vInt 2)]]
        [[("_id", Value.vInt 1), ("f", Value.vInt 3)]]).2 ≠
      applyUpsertReplaceAll
        [[("_id", Value.vInt 1), ("f", Value.vInt 1), ("g", Value.vInt 2)]]
        (Value.vInt 1) [("_id", Value.vInt 1), ("f", Value.vInt 3)]
    ∧ (write [[("_id", Value.vInt 1), ("f", Value.vInt 1), ("g", Value.vInt 2)]]
        [[("_id", Value.vInt 1), ("f", Value.vInt 3)]]).2 =
      [[("_id", Value.vInt 1), ("f", Value.vInt 3), ("g", Value.vInt 2)]]
    ∧ applyUpsertReplaceAll
        [[("_id", Value.vInt 1), ("f", Value.vInt 1), ("g", Value.vInt 2)]]
        (Value.vInt 1) [("_id", Value.vInt 1), ("f", Value.vInt 3)] =
      [[("_id", Value.vInt 1), ("f", Value.vInt 3)]] := by
  refine ⟨?_, ?_, ?_⟩ <;> decide

/-- Witness for the amended C3 at a concrete matched upsert. -/
theorem write_build_semantics_witness :
    WriteBuildSpec [[("_id", Value.vInt 1), ("f", Value.vInt 1), ("g", Value.vInt 2)]]
      [("_id", Value.vInt 1), ("f", Value.vInt 3)] [] []
      [("_id", Value.vInt 1), ("f", Value.vInt 1), ("g", Value.vInt 2)]
    ∧ pyGet [("_id", Value.vInt 1), ("f", Value.vInt 3)] "_id" ≠ Value.vNull
    ∧ [[("_id", Value.vInt 1), ("f", Value.vInt 1), ("g", Value.vInt 2)]] =
        ([] : Store) ++
          [("_id", Value.vInt 1), ("f", Value.vInt 1), ("g", Value.vInt 2)] ::
            ([] : Store)
    ∧ docId [("_id", Value.vInt 1), ("f", Value.vInt 1), ("g", Value.vInt 2)] =
        pyGet [("_id", Value.vInt 1), ("f", Value.vInt 3)] "_id"
    ∧ (write [[("_id", Value.vInt 1), ("f", Value.vInt 1), ("g", Value.vInt 2)]]
        [[("_id", Value.vInt 1), ("f", Value.vInt 3)]]).2 =
      [[("_id", Value.vInt 1), ("f", Value.vInt 3), ("g", Value.vInt 2)]] :=
  ⟨write_build_semantics _ _ _ _ _ (by decide), by decide, by decide,
    by decide, by decide⟩

/-- Claim C5: writing the same identified document twice is idempotent and
leaves exactly one document with that identity, with the written fields,
and an unchanged document count after the second call. -/
theorem write_idempotent (s : Store) (d : Document) (X : Value)
    (hW : storeWF s) (hknd : (d.map Prod.fst).Nodup)
    (hX : d.lookup "_id" = some X) (hnn : X ≠ Value.vNull) :
    WriteIdemSpec s d X := by
  have hid : pyGet d "_id" = X := pyGet_of_lookup_some hX
  have hid' : pyGet d "_id" ≠ Value.vNull := by rw [hid]; exact hnn
  have h1 : (write s [d]).2 = applyUpdateOne s X d := by
    rw [write_single s d hid', hid]
  have hsetid : ∀ base : Document, docId (applySet base d) = X := by
    intro base
    have hb : (applySet base d).lookup "_id" = some X :=
      lookup_applySet_some hknd hX base
    rw [docId]
    exact pyGet_of_lookup_some hb
  rcases store_decomp s X with habs | ⟨pre, old, post, hdec, hpre, hold⟩
  · have e1 : (write s [d]).2 = s ++ [applySet [("_id", X)] d] := by
      rw [h1]
      exact applyUpdateOne_absent s X d habs
    have e2 : (write (write s [d]).2 [d]).2 =
        s ++ [applySet (applySet [("_id", X)] d) d] := by
      rw [write_single _ _ hid', hid, e1]
      exact applyUpdateOne_present s [] (applySet [("_id", X)] d) X d habs
        (hsetid _)
    have eidem : applySet (applySet [("_id", X)] d) d =
        applySet [("_id", X)] d := applySet_idem _ hknd
    refine ⟨?_, ?_, ?_, ?_⟩
    · rw [e2, eidem, e1]
    · rw [e1, List.countP_append]
      have hz : s.countP (fun doc => decide (docId doc = X)) = 0 :=
        List.countP_eq_zero.mpr (fun e he => by simp [habs e he])
      rw [hz]
      simp [List.countP_cons, hsetid]
    · rw [e2, eidem, e1]
    · refine ⟨applySet [("_id", X)] d, ?_, ?_⟩
      · rw [e2, eidem, findDocById_append_right s _ X habs]
        simp [findDocById, hsetid]
      · intro k v h
        exact lookup_applySet_some hknd h _
  · subst hdec
    have e1 : (write (pre ++ old :: post) [d]).2 =
        pre ++ applySet old d :: post := by
      rw [h1]
      exact applyUpdateOne_present pre post old X d hpre hold
    have e2 : (write (write (pre ++ old :: post) [d]).2 [d]).2 =
        pre ++ applySet (applySet old d) d :: post := by
      rw [write_single _ _ hid', hid, e1]
      exact applyUpdateOne_present pre post _ X d hpre (hsetid old)
    have eidem : applySet (applySet old d) d = applySet old d :=
      applySet_idem old hknd
    have hndid := hW.1
    rw [List.map_append, List.map_cons] at hndid
    have hpost : ∀ e ∈ post, docId e ≠ X := by
      intro e he hc
      have h2 := (List.nodup_append.mp hndid).2.1
      rw [List.nodup_cons] at h2
      exact h2.1 (List.mem_map.mpr ⟨e, he, by rw [hc, hold]⟩)
    refine ⟨?_, ?_, ?_, ?_⟩
    · rw [e2, eidem, e1]
    · rw [e1, List.countP_append, List.countP_cons]
      have hz1 : pre.countP (fun doc => decide (docId doc = X)) = 0 :=
        List.countP_eq_zero.mpr (fun e he => by simp [hpre e he])
      have hz2 : post.countP (fun doc => decide (docId doc = X)) = 0 :=
        List.countP_eq_zero.mpr (fun e he => by simp [hpost e he])
      rw [hz1, hz2]
      simp [hsetid]
    · rw [e2, eidem, e1]
    · refine ⟨applySet old d, ?_, ?_⟩
      · rw [e2, eidem, findDocById_append_right pre _ X hpre]
        simp [findDocById, hsetid]
      · intro k v h
        exact lookup_applySet_some hknd h old

/-- Witness for C5: upserting `{_id: 7, f: 1}` twice into an empty store. -/
theorem write_idempotent_witness :
    WriteIdemSpec [] [("_id", Value.vInt 7), ("f", Value.vInt 1)]
      (Value.vInt 7) :=
  write_idempotent [] [("_id", Value.vInt 7), ("f", Value.vInt 1)]
    (Value.vInt 7) (by decide) (by decide) (by decide) (by decide)

/-- Claim C7: `write` with an empty document list and `delete` with a list
in which no document carries a truthy identity both return success with no
effect on the store. -/
theorem write_delete_empty_noop (s : Store) (docs : List Document)
    (h : ∀ d ∈ docs, Value.truthy (pyGet d "_id") = false) :
    write s [] = (true, s) ∧ deleteDocs s docs = (true, s) := by
  constructor
  · simp [write]
  · have hops : buildDeleteOps docs = [] := by
      rw [buildDeleteOps, List.filter_eq_nil_iff.mpr ?_, List.map_nil]
      intro d hd
      simp [h d hd]
    simp [deleteDocs, hops]

/-- Witness for C7 on the spec's own boundary example. -/
theorem write_delete_empty_noop_witness :
    write [[("_id", Value.vInt 1)]] [] = (true, [[("_id", Value.vInt 1)]])
    ∧ deleteDocs [[("_id", Value.vInt 1)]]
        [[("no_id_field", Value.vBool true)]] =
      (true, [[("_id", Value.vInt 1)]]) :=
  write_delete_empty_noop [[("_id", Value.vInt 1)]]
    [[("no_id_field", Value.vBool true)]] (by decide)

/-- Claim C10: a document whose `_id` is falsy but not None (0, empty
string, False) is treated as identified by `write` (it builds an Upsert)
yet is skipped by `delete` (no operation is built and the store is
untouched). -/
theorem falsy_id_write_delete_asym (s : Store) (d : Document)
    (hf : Value.truthy (pyGet d "_id") = false)
    (hnn : pyGet d "_id" ≠ Value.vNull) :
    buildWriteOps [d] = [MutationOp.updateOne (pyGet d "_id") d]
    ∧ buildDeleteOps [d] = []
    ∧ deleteDocs s [d] = (true, s) := by
  refine ⟨?_, ?_, ?_⟩
  · simp [buildWriteOps, hnn]
  · simp [buildDeleteOps, hf]
  · simp [deleteDocs, buildDeleteOps, hf]

/-- Witness for C10 with `_id = 0`, against a store that even contains a
document with that identity. -/
theorem falsy_id_write_delete_asym_witness :
    buildWriteOps [[("_id", Value.vInt 0), ("f", Value.vInt 1)]] =
      [MutationOp.updateOne (Value.vInt 0)
        [("_id", Value.vInt 0), ("f", Value.vInt 1)]]
    ∧ buildDeleteOps [[("_id", Value.vInt 0), ("f", Value.vInt 1)]] = []
    ∧ deleteDocs [[("_id", Value.vInt 0), ("f", Value.vInt 5)]]
        [[("_id", Value.vInt 0), ("f", Value.vInt 1)]] =
      (true, [[("_id", Value.vInt 0), ("f", Value.vInt 5)]]) :=
  falsy_id_write_delete_asym [[("_id", Value.vInt 0), ("f", Value.vInt 5)]]
    [("_id", Value.vInt 0), ("f", Value.vInt 1)] (by decide) (by decide)

theorem sortL_length {α : Type} (lt : α → α → Bool) (l : List α) :
    (sortL lt l).length = l.length :=
  (sortL_perm lt l).length_eq

theorem applyLimit_all {l : List Document} {n : Int}
    (h : (l.length : Int) ≤ n) : applyLimit n l = l := by
  rw [applyLimit]
  by_cases h0 : n ≤ 0
  · rw [if_pos h0]
  · rw [if_neg h0]
    refine List.take_of_length_le ?_
    omega

/- ------------------------------------------------------------------ -/
/- Paginator inner-loop characterisation -/
/- ------------------------------------------------------------------ -/

/-- What one cursor pass does to the buffer state: the fetch counter grows
by the batch length, the newly emitted pages are all exactly `page_size`
long and, together with the leftover buffer, partition the old buffer
followed by the batch; `page_id` ends as the identity of the last document
of the last full page (and is untouched when no page fills). -/
theorem procItems_char (P : Int) (hP : 0 < P) :
    ∀ (B : List Document) (fc : Int) (buf : List Document)
      (pid : Option Value) (pages : List (List Document)),
      (buf.length : Int) < P →
    ∃ news rem pid',
      procItems P B ⟨fc, buf, pid, pages⟩ =
        ⟨fc + B.length, rem, pid', pages ++ news⟩
      ∧ news.flatten ++ rem = buf ++ B
      ∧ (∀ p ∈ news, (p.length : Int) = P)
      ∧ (rem.length : Int) < P
      ∧ (news = [] → rem = buf ++ B ∧ pid' = pid)
      ∧ (news ≠ [] →
          ∃ q pfx, news.flatten = pfx ++ [q] ∧ pid' = some (docId q)) := by
  intro B
  induction B with
  | nil =>
      intro fc buf pid pages hbuf
      refine ⟨[], buf, pid, by simp [procItems], by simp, by simp, hbuf,
        by simp, by simp⟩
  | cons d rest ih =>
      intro fc buf pid pages hbuf
      simp only [procItems]
      by_cases h : ((buf ++ [d]).length : Int) = P
      · rw [if_pos h]
        obtain ⟨news', rem, pid', heq, hjoin, hfull, hrem, hnil, hlast⟩ :=
          ih (fc + 1) [] (some (docId d)) (pages ++ [buf ++ [d]])
            (by simpa using hP)
        have hjoin' : news'.flatten ++ rem = rest := by simpa using hjoin
        refine ⟨(buf ++ [d]) :: news', rem, pid', ?_, ?_, ?_, hrem, ?_, ?_⟩
        · rw [heq]
          have h1 : fc + 1 + (rest.length : Int) =
              fc + ((d :: rest).length : Int) := by
            push_cast [List.length_cons]; ring
          have h2 : pages ++ [buf ++ [d]] ++ news' =
              pages ++ ((buf ++ [d]) :: news') := by
            rw [List.append_assoc, List.singleton_append]
          rw [h1, h2]
        · simp only [List.flatten_cons, List.append_assoc, List.cons_append,
            List.singleton_append, hjoin', List.nil_append]
        · intro p hp
          rcases List.mem_cons.mp hp with rfl | hp'
          · exact h
          · exact hfull p hp'
        · intro hcon
          exact absurd hcon (List.cons_ne_nil _ _)
        · intro _
          by_cases hn : news' = []
          · subst hn
            refine ⟨d, buf, by simp, (hnil rfl).2⟩
          · obtain ⟨q, pfx, hjq, hpid⟩ := hlast hn
            refine ⟨q, (buf ++ [d]) ++ pfx, ?_, hpid⟩
            simp only [List.flatten_cons, hjq, List.append_assoc]
      · rw [if_neg h]
        have hlt : ((buf ++ [d]).length : Int) < P := by
          simp only [List.length_append, List.length_singleton] at h ⊢
          push_cast at h ⊢
          omega
        obtain ⟨news, rem, pid', heq, hjoin, hfull, hrem, hnil, hlast⟩ :=
          ih (fc + 1) (buf ++ [d]) pid pages hlt
        refine ⟨news, rem, pid', ?_, ?_, hfull, hrem, ?_, hlast⟩
        · rw [heq]
          have h1 : fc + 1 + (rest.length : Int) =
              fc + ((d :: rest).length : Int) := by
            push_cast [List.length_cons]; ring
          rw [h1]
        · rw [hjoin, List.append_assoc, List.singleton_append]
        · intro hn
          obtain ⟨h1, h2⟩ := hnil hn
          refine ⟨?_, h2⟩
          rw [h1, List.append_assoc, List.singleton_append]

/- ------------------------------------------------------------------ -/
/- Sorted-set lemmas -/
/- ------------------------------------------------------------------ -/

section RedisLemmas

variable {α : Type} [LinearOrder α] [DecidableEq α]

theorem zpairLt_iff (a b : α × Int) :
    zpairLt a b = true ↔ (a.2 < b.2 ∨ (a.2 = b.2 ∧ a.1 < b.1)) := by
  simp [zpairLt]

theorem zpairLt_false_iff (a b : α × Int) :
    zpairLt a b = false ↔ (b.2 ≤ a.2 ∧ (a.2 = b.2 → b.1 ≤ a.1)) := by
  rw [← Bool.not_eq_true, zpairLt_iff]
  constructor
  · intro h
    rw [not_or] at h
    refine ⟨not_lt.mp h.1, fun he => not_lt.mp fun hl => h.2 ⟨he, hl⟩⟩
  · rintro ⟨hle, himp⟩ (h | ⟨he, hl⟩)
    · exact absurd hle (not_le.mpr h)
    · exact absurd hl (not_lt.mpr (himp he))

theorem zpairLt_asymm (a b : α × Int) (h : zpairLt a b = true) :
    zpairLt b a = false := by
  rw [zpairLt_iff] at h
  rw [zpairLt_false_iff]
  rcases h with h | ⟨he, hl⟩
  · exact ⟨le_of_lt h, fun he => absurd he (ne_of_gt h)⟩
  · exact ⟨le_of_eq he, fun _ => le_of_lt hl⟩

theorem zpairLt_negtrans (a b c : α × Int) (h1 : zpairLt a b = false)
    (h2 : zpairLt b c = false) : zpairLt a c = false := by
  rw [zpairLt_false_iff] at h1 h2 ⊢
  refine ⟨h2.1.trans h1.1, fun he => ?_⟩
  have hba : b.2 = a.2 := le_antisymm h1.1 (by rw [he]; exact h2.1)
  exact (h2.2 (hba.trans he)).trans (h1.2 hba.symm)

/-- `ZRANGEBYSCORE` output has no inversion in the (score, member) order. -/
theorem zrange_sorted (z : ZSet α) (mn mx : Int) :
    (zrangebyscoreWS z mn mx).Pairwise fun p q => zpairLt q p = false :=
  sortL_pairwise zpairLt_asymm zpairLt_negtrans _

theorem zrange_mem_iff (z : ZSet α) (mn mx : Int) (p : α × Int) :
    p ∈ zrangebyscoreWS z mn mx ↔ (p ∈ z ∧ mn ≤ p.2 ∧ p.2 ≤ mx) := by
  rw [zrangebyscoreWS, (sortL_perm _ _).mem_iff, List.mem_filter]
  simp

theorem applyNum_sublist (num : Option Int) (l : ZSet α) :
    (applyNum num l).Sublist l := by
  cases num with
  | none => exact List.Sublist.refl l
  | some n =>
      simp only [applyNum]
      by_cases h : n < 0
      · rw [if_pos h]
      · rw [if_neg h]; exact List.take_sublist _ _

theorem zrange_fst_nodup (z : ZSet α) (mn mx : Int) (hW : zsetWF z) :
    ((zrangebyscoreWS z mn mx).map Prod.fst).Nodup := by
  have h1 : ((z.filter fun p => decide (mn ≤ p.2) && decide (p.2 ≤ mx)).map
      Prod.fst).Nodup :=
    ((List.filter_sublist z).map Prod.fst).nodup hW
  exact (((sortL_perm zpairLt _).map Prod.fst).nodup_iff).mpr h1

theorem zscore_cons (q : α × Int) (rest : ZSet α) (m : α) :
    zscore (q :: rest) m = if q.1 = m then some q.2 else zscore rest m := by
  by_cases h : q.1 = m <;> simp [zscore, List.find?, h]

theorem zscore_eq_some_of_mem {z : ZSet α} {m : α} {s : Int}
    (hW : zsetWF z) (h : (m, s) ∈ z) : zscore z m = some s := by
  induction z with
  | nil => cases h
  | cons p rest ih =>
      have hW' := hW
      rw [zsetWF, List.map_cons, List.nodup_cons] at hW'
      rw [zscore_cons]
      rcases List.mem_cons.mp h with rfl | hrest
      · rw [if_pos rfl]
      · have hne : ¬p.1 = m := by
          intro he
          exact hW'.1 (he ▸ (List.mem_map.mpr ⟨(m, s), hrest, rfl⟩))
        rw [if_neg hne]
        exact ih hW'.2 hrest

theorem mem_of_zscore_eq_some {z : ZSet α} {m : α} {s : Int}
    (h : zscore z m = some s) : (m, s) ∈ z := by
  rw [zscore] at h
  cases hf : z.find? fun p => decide (p.1 = m) with
  | none => rw [hf] at h; cases h
  | some p =>
      rw [hf] at h
      have hm := List.mem_of_find?_eq_some hf
      have hp : p.1 = m := by simpa using List.find?_some hf
      have hs : p.2 = s := by simpa using h
      have : p = (m, s) := Prod.ext hp hs
      exact this ▸ hm

theorem zscore_zincrbyZ_self {z : ZSet α} {m : α} {s : Int} (delta : Int)
    (h : zscore z m = some s) :
    zscore (zincrbyZ z delta m) m = some (s + delta) := by
  induction z with
  | nil => simp [zscore] at h
  | cons p rest ih =>
      rw [zscore_cons] at h
      by_cases hpm : p.1 = m
      · rw [if_pos hpm] at h
        rw [Option.some_inj] at h
        simp [zincrbyZ, if_pos hpm, zscore_cons, h]
      · rw [if_neg hpm] at h
        simp only [zincrbyZ, if_neg hpm, zscore_cons, if_neg hpm]
        exact ih h

theorem zscore_zincrbyZ_other {z : ZSet α} {m x : α} (delta : Int)
    (hne : m ≠ x) : zscore (zincrbyZ z delta x) m = zscore z m := by
  induction z with
  | nil =>
      have h1 : ¬(x = m) := fun h => hne h.symm
      simp [zincrbyZ, zscore, List.find?, h1]
  | cons p rest ih =>
      have h1 : ¬(x = m) := fun h => hne h.symm
      by_cases hpx : p.1 = x
      · have h2 : ¬(p.1 = m) := by rw [hpx]; exact h1
        simp only [zincrbyZ, if_pos hpx, zscore_cons, if_neg h1, if_neg h2]
      · simp only [zincrbyZ, if_neg hpx, zscore_cons]
        by_cases hpm : p.1 = m
        · rw [if_pos hpm, if_pos hpm]
        · rw [if_neg hpm, if_neg hpm]
          exact ih

theorem zremZ_sublist (z : ZSet α) (x : α) : (zremZ z x).Sublist z := by
  induction z with
  | nil => simp [zremZ]
  | cons p rest ih =>
      simp only [zremZ]
      by_cases hpx : p.1 = x
      · rw [if_pos hpx]; exact (List.sublist_cons_self p rest)
      · rw [if_neg hpx]; exact ih.cons₂ p

theorem zsetWF_zremZ {z : ZSet α} (x : α) (hW : zsetWF z) :
    zsetWF (zremZ z x) :=
  ((zremZ_sublist z x).map Prod.fst).nodup hW

theorem zscore_eq_none_of_not_mem_fst {z : ZSet α} {m : α}
    (h : m ∉ z.map Prod.fst) : zscore z m = none := by
  induction z with
  | nil => rfl
  | cons p rest ih =>
      rw [List.map_cons, List.mem_cons, not_or] at h
      rw [zscore_cons, if_neg (fun he => h.1 he.symm)]
      exact ih h.2

theorem zscore_zremZ_self {z : ZSet α} (x : α) (hW : zsetWF z) :
    zscore (zremZ z x) x = none := by
  induction z with
  | nil => rfl
  | cons p rest ih =>
      have hW' := hW
      rw [zsetWF, List.map_cons, List.nodup_cons] at hW'
      simp only [zremZ]
      by_cases hpx : p.1 = x
      · rw [if_pos hpx]
        exact zscore_eq_none_of_not_mem_fst (hpx ▸ hW'.1)
      · rw [if_neg hpx, zscore_cons, if_neg hpx]
        exact ih hW'.2

theorem zscore_zremZ_other {z : ZSet α} {m x : α} (hne : m ≠ x) :
    zscore (zremZ z x) m = zscore z m := by
  induction z with
  | nil => rfl
  | cons p rest ih =>
      simp only [zremZ]
      by_cases hpx : p.1 = x
      · rw [if_pos hpx]
        have h2 : ¬(p.1 = m) := by rw [hpx]; exact fun h => hne h.symm
        rw [zscore_cons, if_neg h2]
      · rw [if_neg hpx]
        by_cases hpm : p.1 = m
        · rw [zscore_cons, zscore_cons, if_pos hpm, if_pos hpm]
        · rw [zscore_cons, zscore_cons, if_neg hpm, if_neg hpm]
          exact ih

theorem zscore_foldl_incr_not_mem (delta : Int) (L : List α) {z : ZSet α}
    {m : α} (h : m ∉ L) :
    zscore (L.foldl (fun acc x => zincrbyZ acc delta x) z) m = zscore z m := by
  induction L generalizing z with
  | nil => rfl
  | cons x L' ih =>
      rw [List.mem_cons, not_or] at h
      rw [List.foldl_cons, ih h.2, zscore_zincrbyZ_other delta h.1]

theorem zscore_foldl_incr_mem (delta : Int) {L : List α} {z : ZSet α}
    {m : α} {s : Int} (hnd : L.Nodup) (h : m ∈ L)
    (hs : zscore z m = some s) :
    zscore (L.foldl (fun acc x => zincrbyZ acc delta x) z) m =
      some (s + delta) := by
  induction L generalizing z with
  | nil => cases h
  | cons x L' ih =>
      rw [List.nodup_cons] at hnd
      rw [List.foldl_cons]
      rcases List.mem_cons.mp h with rfl | hm
      · rw [zscore_foldl_incr_not_mem delta L' hnd.1]
        exact zscore_zincrbyZ_self delta hs
      · have hne : m ≠ x := fun he => hnd.1 (he ▸ hm)
        exact ih hnd.2 hm (by rw [zscore_zincrbyZ_other delta hne]; exact hs)

theorem zscore_foldl_rem_not_mem (L : List α) {z : ZSet α} {m : α}
    (h : m ∉ L) : zscore (L.foldl zremZ z) m = zscore z m := by
  induction L generalizing z with
  | nil => rfl
  | cons x L' ih =>
      rw [List.mem_cons, not_or] at h
      rw [List.foldl_cons, ih h.2, zscore_zremZ_other h.1]

theorem zscore_foldl_rem_mem {L : List α} {z : ZSet α} {m : α}
    (hW : zsetWF z) (h : m ∈ L) : zscore (L.foldl zremZ z) m = none := by
  induction L generalizing z with
  | nil => cases h
  | cons x L' ih =>
      rw [List.foldl_cons]
      rcases List.mem_cons.mp h with rfl | hm
      · by_cases hm' : m ∈ L'
        · exact ih (zsetWF_zremZ m hW) hm'
        · rw [zscore_foldl_rem_not_mem L' hm']
          exact zscore_zremZ_self m hW
      · exact ih (zsetWF_zremZ x hW) hm

/-- Shared selection facts: the fetched entries of a (possibly limited)
`ZRANGEBYSCORE` lie in the set and the interval, their members are distinct
and their scores are the stored ones, pairwise ascending. -/
theorem zselect_facts (z : ZSet α) (mn mx : Int) (num : Option Int)
    (hW : zsetWF z) :
    (∀ p ∈ applyNum num (zrangebyscoreWS z mn mx),
        p ∈ z ∧ mn ≤ p.2 ∧ p.2 ≤ mx ∧ zscore z p.1 = some p.2)
    ∧ ((applyNum num (zrangebyscoreWS z mn mx)).map Prod.fst).Nodup
    ∧ ((applyNum num (zrangebyscoreWS z mn mx)).map Prod.fst).Pairwise
        (fun m1 m2 => ∀ s1 s2, zscore z m1 = some s1 →
          zscore z m2 = some s2 → s1 ≤ s2) := by
  have hsub := applyNum_sublist num (zrangebyscoreWS z mn mx)
  have hmem : ∀ p ∈ applyNum num (zrangebyscoreWS z mn mx),
      p ∈ z ∧ mn ≤ p.2 ∧ p.2 ≤ mx := by
    intro p hp
    exact (zrange_mem_iff z mn mx p).mp (hsub.subset hp)
  have hscore : ∀ p ∈ applyNum num (zrangebyscoreWS z mn mx),
      zscore z p.1 = some p.2 := by
    intro p hp
    have h1 : (p.1, p.2) ∈ z := by rw [Prod.mk.eta]; exact (hmem p hp).1
    exact zscore_eq_some_of_mem hW h1
  refine ⟨fun p hp => ⟨(hmem p hp).1, (hmem p hp).2.1, (hmem p hp).2.2,
      hscore p hp⟩, ?_, ?_⟩
  · exact (hsub.map Prod.fst).nodup (zrange_fst_nodup z mn mx hW)
  · have hpw : (applyNum num (zrangebyscoreWS z mn mx)).Pairwise
        (fun p q => zpairLt q p = false) :=
      (zrange_sorted z mn mx).sublist hsub
    have hsc : (applyNum num (zrangebyscoreWS z mn mx)).Pairwise
        (fun p q => p.2 ≤ q.2) :=
      hpw.imp (fun h => ((zpairLt_false_iff _ _).mp h).1)
    rw [List.pairwise_map]
    refine hsc.imp_of_mem ?_
    intro p q hp hq hpq s1 s2 h1 h2
    rw [hscore p hp] at h1
    rw [hscore q hq] at h2
    rw [Option.some_inj] at h1 h2
    rw [← h1, ← h2]
    exact hpq

/-- Claim C2: `zset_increase_by_score` returns exactly the members whose
score lay in `[mn, mx]` before the call (capped to the first `num` by
ascending score when a limit is given), in ascending pre-increment score
order, and afterwards each returned member's score is its old score plus
the increment, all other members untouched. -/
theorem zset_increase_by_score_spec (z : ZSet α) (mn mx delta : Int)
    (num : Option Int) (hW : zsetWF z) :
    IncrementRangeSpec z mn mx delta num := by
  obtain ⟨hfacts, hnd, hpw⟩ := zselect_facts z mn mx num hW
  simp only [IncrementRangeSpec, zset_increase_by_score]
  refine ⟨?_, ?_, hnd, hpw, ?_, ?_⟩
  · rintro rfl m
    simp only [applyNum] at hnd hpw ⊢
    constructor
    · intro hm
      rcases List.mem_map.mp hm with ⟨p, hp, rfl⟩
      rcases (zrange_mem_iff z mn mx p).mp hp with ⟨hz, h1, h2⟩
      refine ⟨p.2, ?_, h1, h2⟩
      exact zscore_eq_some_of_mem hW (by rw [Prod.mk.eta]; exact hz)
    · rintro ⟨s, hs, h1, h2⟩
      refine List.mem_map.mpr ⟨(m, s), ?_, rfl⟩
      exact (zrange_mem_iff z mn mx (m, s)).mpr
        ⟨mem_of_zscore_eq_some hs, h1, h2⟩
  · rintro n rfl hn
    simp only [applyNum, if_neg (not_lt.mpr hn)]
    rw [List.map_take]
  · intro m hm s hs
    exact zscore_foldl_incr_mem delta hnd hm hs
  · intro m hm
    exact zscore_foldl_incr_not_mem delta _ hm

/-- Claim C6: `zset_del_by_score` removes exactly the members whose score
lies in `[mn, mx]` (capped to the first `num` by ascending score when a
limit is given), returns them in ascending score order, and leaves the
membership and score of every other member unchanged. -/
theorem zset_del_by_score_spec (z : ZSet α) (mn mx : Int)
    (num : Option Int) (hW : zsetWF z) : DeleteRangeSpec z mn mx num := by
  obtain ⟨hfacts, hnd, hpw⟩ := zselect_facts z mn mx num hW
  simp only [DeleteRangeSpec, zset_del_by_score]
  refine ⟨?_, ?_, hnd, hpw, ?_, ?_⟩
  · rintro rfl m
    simp only [applyNum] at hnd hpw ⊢
    constructor
    · intro hm
      rcases List.mem_map.mp hm with ⟨p, hp, rfl⟩
      rcases (zrange_mem_iff z mn mx p).mp hp with ⟨hz, h1, h2⟩
      refine ⟨p.2, ?_, h1, h2⟩
      exact zscore_eq_some_of_mem hW (by rw [Prod.mk.eta]; exact hz)
    · rintro ⟨s, hs, h1, h2⟩
      refine List.mem_map.mpr ⟨(m, s), ?_, rfl⟩
      exact (zrange_mem_iff z mn mx (m, s)).mpr
        ⟨mem_of_zscore_eq_some hs, h1, h2⟩
  · rintro n rfl hn
    simp only [applyNum, if_neg (not_lt.mpr hn)]
    rw [List.map_take]
  · intro m hm
    exact zscore_foldl_rem_mem hW hm
  · intro m hm
    exact zscore_foldl_rem_not_mem _ hm

/-- Witness for C2 at the spec's own example: scores 1..5, increment the
interval `[2, 4]` by 10. -/
theorem zset_increase_by_score_spec_witness :
    IncrementRangeSpec ([(1, 1), (2, 2), (3, 3), (4, 4), (5, 5)] : ZSet Nat)
      2 4 10 none :=
  zset_increase_by_score_spec _ 2 4 10 none (by decide)

/-- Witness for C6: scores 1..5, delete the interval `[2, 4]` with limit 2. -/
theorem zset_del_by_score_spec_witness :
    DeleteRangeSpec ([(1, 1), (2, 2), (3, 3), (4, 4), (5, 5)] : ZSet Nat)
      2 4 (some 2) :=
  zset_del_by_score_spec _ 2 4 (some 2) (by decide)

end RedisLemmas

/-- Claim C9: with logging on, a traversal whose non-zero matched
population is smaller than `page_size` never fills a page, so the
end-of-batch log line reads `page_id` before any assignment: the generator
yields the single partial page and then raises `UnboundLocalError` instead
of finishing normally. -/
theorem getter_partial_page_unbound (store : List Document)
    (f : Document → Bool) (P : Int) (fuel : Nat) (hP : 0 < P)
    (hfuel : 0 < fuel) (hN0 : 0 < (store.filter f).length)
    (hNP : ((store.filter f).length : Int) < P) :
    getter store f [] RetCnt.all P true true fuel =
      ⟨[sortL docLt (store.filter f)], GOutcome.unboundLocal⟩ := by
  obtain ⟨fuel', rfl⟩ : ∃ k, fuel = k + 1 := ⟨fuel - 1, by omega⟩
  have hcnt : ¬(countDocs store f = 0) := by
    simp only [countDocs]
    omega
  have hMlen : (sortL docLt (store.filter f)).length =
      (store.filter f).length := sortL_length _ _
  simp only [getter, resolveRetCnt]
  rw [if_neg hcnt]
  have hNP50 : countDocs store f < P * 50 := by
    simp only [countDocs]
    nlinarith [hP]
  rw [if_pos hNP50]
  simp only [if_true]
  simp only [getterLoop]
  have hgt : 0 + P > countDocs store f := by
    simp only [countDocs]
    omega
  have hcache : (if 0 + P > countDocs store f then countDocs store f - 0
      else countDocs store f) = countDocs store f := by
    rw [if_pos hgt, sub_zero]
  rw [hcache]
  have hbatch : findDocs store (mkFilters f none) true (countDocs store f)
      none = sortL docLt (store.filter f) := by
    simp only [findDocs, mkFilters, if_true]
    exact applyLimit_all (by rw [hMlen]; simp only [countDocs]; exact le_refl _)
  rw [hbatch]
  obtain ⟨news, rem, pid', heq, hjoin, hfull, hrem, hnil, hlast⟩ :=
    procItems_char P hP (sortL docLt (store.filter f)) 0 [] none []
      (by simpa using hP)
  have hnews : news = [] := by
    rcases news with _ | ⟨p, news'⟩
    · rfl
    · exfalso
      have hplen := hfull p (List.mem_cons_self _ _)
      have hlen := congrArg List.length hjoin
      simp only [List.flatten_cons, List.length_append, List.nil_append,
        List.append_assoc] at hlen
      rw [hMlen] at hlen
      omega
  subst hnews
  obtain ⟨hrem', hpid'⟩ := hnil rfl
  subst hpid'
  simp only [List.nil_append] at hrem'
  subst hrem'
  rw [heq]
  have hMne : sortL docLt (store.filter f) ≠ [] := by
    intro h
    rw [h] at hMlen
    simp only [List.length_nil] at hMlen
    omega
  simp [hMne]

/-- Witness for C9: one matching document, `page_size` 5, logging on. -/
theorem getter_partial_page_unbound_witness :
    getter [[("_id", Value.vInt 1)]] (fun _ => true) [] RetCnt.all 5 true
        true 1 =
      ⟨[sortL docLt (List.filter (fun _ => true) [[("_id", Value.vInt 1)]])],
       GOutcome.unboundLocal⟩ :=
  getter_partial_page_unbound [[("_id", Value.vInt 1)]] (fun _ => true) 5 1
    (by decide) (by decide) (by decide) (by decide)

/-- Claim C4 (code bug): the clamp `0 > return_cnt > total_cnt` on line 212
is never true for a non-negative total, so a requested count of 10 against
3 matched documents is NOT clamped; the traversal yields the 3 matched
documents and then, instead of terminating, reads the never-assigned
`page_id` and dies with `UnboundLocalError`. -/
theorem getter_no_clamp_bug :
    resolveRetCnt (RetCnt.num 10) 3 = 10
    ∧ getter
        [[("_id", Value.vInt 1)], [("_id", Value.vInt 2)],
         [("_id", Value.vInt 3)]]
        (fun _ => true) [] (RetCnt.num 10) 500 true true 5 =
      ⟨[[[("_id", Value.vInt 1)], [("_id", Value.vInt 2)],
         [("_id", Value.vInt 3)]]], GOutcome.unboundLocal⟩ := by
  constructor
  · decide
  · decide

theorem mem_keys_iff_lookup {d : Document} {k : String} :
    k ∈ d.map Prod.fst ↔ (d.lookup k).isSome = true := by
  induction d with
  | nil => simp
  | cons p rest ih =>
      rw [List.map_cons, List.mem_cons, lookup_cons]
      by_cases h : k = p.1
      · simp [h]
      · simp only [if_neg h]
        constructor
        · intro hm
          rcases hm with he | hm
          · exact absurd he h
          · exact ih.mp hm
        · intro hs
          exact Or.inr (ih.mpr hs)

theorem hasKey_project {d : Document} (fields : List String)
    (h : hasKey d "_id" = true) :
    hasKey (project fields d) "_id" = true := by
  rw [hasKey, ← mem_keys_iff_lookup] at h ⊢
  rcases List.mem_map.mp h with ⟨kv, hkv, hfst⟩
  refine List.mem_map.mpr ⟨kv, ?_, hfst⟩
  rw [project, List.mem_filter]
  refine ⟨hkv, ?_⟩
  rw [hfst]
  simp

theorem applyLimit_sublist (n : Int) (l : List Document) :
    (applyLimit n l).Sublist l := by
  rw [applyLimit]
  by_cases h : n ≤ 0
  · rw [if_pos h]
  · rw [if_neg h]
    exact List.take_sublist _ _

theorem mem_store_of_mem_findDocs {store : Store} {p : Document → Bool}
    {sortQ : Bool} {limit : Int} {fields : List String} {d : Document}
    (hd : d ∈ findDocs store p sortQ limit (some fields)) :
    ∃ e ∈ store, d = project fields e := by
  rw [findDocs] at hd
  rcases List.mem_map.mp hd with ⟨e, he, hde⟩
  refine ⟨e, ?_, hde.symm⟩
  have h1 : e ∈ (if sortQ then sortL docLt (store.filter p)
      else store.filter p) :=
    (applyLimit_sublist limit _).subset he
  have h2 : e ∈ store.filter p := by
    rcases sortQ with _ | _
    · simpa using h1
    · exact (sortL_perm docLt (store.filter p)).mem_iff.mp (by simpa using h1)
  exact List.mem_of_mem_filter h2

theorem findDocs_proj_id {store : Store} {p : Document → Bool}
    {sortQ : Bool} {limit : Int} {fields : List String}
    (hW : ∀ e ∈ store, hasKey e "_id" = true) :
    ∀ d ∈ findDocs store p sortQ limit (some fields),
      hasKey d "_id" = true := by
  intro d hd
  obtain ⟨e, he, rfl⟩ := mem_store_of_mem_findDocs hd
  exact hasKey_project fields (hW e he)

theorem procItems_mem (P : Int) (X : Document → Prop) :
    ∀ (B : List Document) (fc : Int) (buf : List Document)
      (pid : Option Value) (pages : List (List Document)),
      (∀ d ∈ B, X d) → (∀ d ∈ buf, X d) →
      (∀ p ∈ pages, ∀ d ∈ p, X d) →
      (∀ p ∈ (procItems P B ⟨fc, buf, pid, pages⟩).pages, ∀ d ∈ p, X d)
      ∧ (∀ d ∈ (procItems P B ⟨fc, buf, pid, pages⟩).buf, X d) := by
  intro B
  induction B with
  | nil =>
      intro fc buf pid pages hB hbuf hpages
      exact ⟨hpages, hbuf⟩
  | cons d rest ih =>
      intro fc buf pid pages hB hbuf hpages
      have hXd : X d := hB d (List.mem_cons_self d rest)
      have hB' : ∀ e ∈ rest, X e := fun e he => hB e (List.mem_cons_of_mem d he)
      have hbuf' : ∀ e ∈ buf ++ [d], X e := by
        intro e he
        rcases List.mem_append.mp he with h1 | h1
        · exact hbuf e h1
        · rcases List.mem_singleton.mp h1 with rfl
          exact hXd
      simp only [procItems]
      by_cases h : ((buf ++ [d]).length : Int) = P
      · rw [if_pos h]
        refine ih (fc + 1) [] (some (docId d)) (pages ++ [buf ++ [d]]) hB'
          (by intro e he; cases he) ?_
        intro p hp
        rcases List.mem_append.mp hp with h1 | h1
        · exact hpages p h1
        · rcases List.mem_singleton.mp h1 with rfl
          exact hbuf'
      · rw [if_neg h]
        exact ih (fc + 1) (buf ++ [d]) pid pages hB' hbuf' hpages

theorem getterLoop_mem (store : Store) (f : Document → Bool)
    (proj : Option (List String)) (P rcnt : Int) (sortQ logSwitch : Bool)
    (X : Document → Prop)
    (hfind : ∀ cache lb,
      ∀ d ∈ findDocs store (mkFilters f lb) sortQ cache proj, X d) :
    ∀ (fuel : Nat) (st : GState),
      (∀ d ∈ st.itemList, X d) → (∀ p ∈ st.pages, ∀ d ∈ p, X d) →
      ∀ p ∈ (getterLoop store f proj P rcnt sortQ logSwitch fuel st).pages,
        ∀ d ∈ p, X d := by
  intro fuel
  induction fuel with
  | zero =>
      intro st hbuf hpages
      exact hpages
  | succ fuel ih =>
      rintro ⟨fc, buf, lb, pid, cacheSize, pages⟩ hbuf hpages
      simp only [getterLoop]
      generalize hc : (if fc + P > rcnt then rcnt - fc else cacheSize) = cache
      obtain ⟨hp1, hp2⟩ := procItems_mem P X
        (findDocs store (mkFilters f lb) sortQ cache proj)
        fc buf pid pages (hfind cache lb) hbuf hpages
      generalize hps : procItems P
        (findDocs store (mkFilters f lb) sortQ cache proj)
        ⟨fc, buf, pid, pages⟩ = ps
      rw [hps] at hp1 hp2
      have hpages' : ∀ p ∈ (if ps.buf = [] then ps.pages
          else ps.pages ++ [ps.buf]), ∀ d ∈ p, X d := by
        split
        · exact hp1
        · intro p hp
          rcases List.mem_append.mp hp with h1 | h1
          · exact hp1 p h1
          · rcases List.mem_singleton.mp h1 with rfl
            exact hp2
      split
      · exact hpages'
      · split
        · exact hpages'
        · split
          · exact hpages'
          · exact ih _ hp2 hpages'

/-- Claim C8: with a non-empty `return_fields` projection — whether or not
it names `_id` — every document yielded by any `getter` traversal still
carries its `_id` field, because an inclusion projection always returns the
identity. -/
theorem getter_projection_keeps_id (store : Store) (f : Document → Bool)
    (fields : List String) (rc : RetCnt) (P : Int) (sortQ logSwitch : Bool)
    (fuel : Nat) (hfne : fields ≠ [])
    (hW : ∀ e ∈ store, hasKey e "_id" = true) :
    ProjectionKeepsIdSpec store f fields rc P sortQ logSwitch fuel := by
  rw [ProjectionKeepsIdSpec]
  simp only [getter]
  by_cases h0 : countDocs store f = 0
  · rw [if_pos h0]
    intro p hp
    cases hp
  · rw [if_neg h0, if_neg hfne]
    refine getterLoop_mem store f (some fields) P _ sortQ logSwitch _
      ?_ fuel _ ?_ ?_
    · intro cache lb
      exact findDocs_proj_id hW
    · intro d hd
      cases hd
    · intro p hp
      cases hp

/-- Witness for C8: projecting to `["f"]` only, the yielded documents keep
`_id`. -/
theorem getter_projection_keeps_id_witness :
    ProjectionKeepsIdSpec [[("_id", Value.vInt 1), ("f", Value.vInt 2)]]
      (fun _ => true) ["f"] RetCnt.all 1 true false 3 :=
  getter_projection_keeps_id _ _ _ _ _ _ _ _ (by decide) (by decide)


theorem applyLimit_take {n : Int} (h : 0 < n) (l : List Document) :
    applyLimit n l = l.take n.toNat := by
  rw [applyLimit, if_neg (not_le.mpr h)]

theorem flatten_length_of_full (P : Int) :
    ∀ (news : List (List Document)),
      (∀ p ∈ news, (p.length : Int) = P) →
      ((news.flatten.length : Int) = (news.length : Int) * P) := by
  intro news
  induction news with
  | nil => intro _; simp
  | cons p rest ih =>
      intro h
      have hp := h p (List.mem_cons_self p rest)
      have hr := ih (fun q hq => h q (List.mem_cons_of_mem p hq))
      simp only [List.flatten_cons, List.length_append, List.length_cons]
      push_cast
      rw [hp, hr]
      ring

theorem sorted_strict_unique {l₁ l₂ : List Document}
    (h1 : l₁.Pairwise fun d e => docLt d e = true)
    (h2 : l₂.Pairwise fun d e => docLt d e = true)
    (hp : l₁.Perm l₂) : l₁ = l₂ := by
  haveI : IsAntisymm Document (fun d e => docLt d e = true) := by
    constructor
    intro a b hab hba
    have h := docLt_asymm a b hab
    rw [hba] at h
    exact absurd h (by simp)
  exact List.eq_of_perm_of_sorted hp h1 h2

theorem sorted_suffix_eq (store : List Document) (f : Document → Bool)
    (hnd : (store.map docId).Nodup) (l₁ l₂ : List Document) (e : Document)
    (hM : sortL docLt (store.filter f) = l₁ ++ e :: l₂) :
    sortL docLt (store.filter
      (fun d => Value.ltB (docId e) (docId d) && f d)) = l₂ := by
  have hfnd : ((store.filter f).map docId).Nodup :=
    ((List.filter_sublist store).map docId).nodup hnd
  have hstrict : (l₁ ++ e :: l₂).Pairwise fun d g => docLt d g = true := by
    rw [← hM]
    exact sortL_docLt_strict hfnd
  rw [List.pairwise_append] at hstrict
  obtain ⟨hpw1, hpw2, hacross⟩ := hstrict
  rw [List.pairwise_cons] at hpw2
  obtain ⟨hel2, hpwl2⟩ := hpw2
  -- the target filter commutes to a filter of the sorted matched list
  have hcomm : store.filter (fun d => Value.ltB (docId e) (docId d) && f d) =
      (store.filter f).filter (fun d => Value.ltB (docId e) (docId d)) := by
    rw [List.filter_filter]
  have hperm1 : ((l₁ ++ e :: l₂).filter
        (fun d => Value.ltB (docId e) (docId d))).Perm
      (store.filter (fun d => Value.ltB (docId e) (docId d) && f d)) := by
    rw [hcomm, ← hM]
    exact (sortL_perm docLt (store.filter f)).filter _
  have hfiltered : (l₁ ++ e :: l₂).filter
      (fun d => Value.ltB (docId e) (docId d)) = l₂ := by
    rw [List.filter_append]
    have hl1 : l₁.filter (fun d => Value.ltB (docId e) (docId d)) = [] := by
      rw [List.filter_eq_nil_iff]
      intro x hx
      have hxe : docLt x e = true := hacross x hx e (List.mem_cons_self e l₂)
      simp only [Bool.not_eq_true]
      exact Value.ltB_asymm hxe
    have hl2 : (e :: l₂).filter (fun d => Value.ltB (docId e) (docId d)) =
        l₂ := by
      rw [List.filter_cons]
      have hee : Value.ltB (docId e) (docId e) = false := Value.ltB_irrefl _
      rw [if_neg (by simp [hee])]
      rw [List.filter_eq_self]
      intro y hy
      exact hel2 y hy
    rw [hl1, hl2, List.nil_append]
  -- both sides are strictly sorted and permutations of each other
  have hsub : (store.filter
      (fun d => Value.ltB (docId e) (docId d) && f d)).Sublist store :=
    List.filter_sublist store
  have hnd2 : ((store.filter
      (fun d => Value.ltB (docId e) (docId d) && f d)).map docId).Nodup :=
    ((hsub).map docId).nodup hnd
  have hs1 : (sortL docLt (store.filter
      (fun d => Value.ltB (docId e) (docId d) && f d))).Pairwise
      fun d g => docLt d g = true := sortL_docLt_strict hnd2
  have hs2 : l₂.Pairwise fun d g => docLt d g = true := hpwl2
  refine sorted_strict_unique hs1 hs2 ?_
  refine (sortL_perm _ _).trans ?_
  rw [← hfiltered]
  exact hperm1.symm


theorem full_chunks_arith {k r P : Int} (hP : 0 < P) (hk : 0 ≤ k)
    (h : k * P + r = P * 50) (h0 : 0 ≤ r) (hr : r < P) : r = 0 := by
  rcases lt_trichotomy k 50 with hlt | heq | hgt
  · exfalso
    have h49 : k ≤ 49 := by omega
    have hm : k * P ≤ 49 * P := mul_le_mul_of_nonneg_right h49 (le_of_lt hP)
    linarith
  · subst heq
    linarith
  · exfalso
    have h51 : (51 : Int) ≤ k := by omega
    have hm : 51 * P ≤ k * P := mul_le_mul_of_nonneg_right h51 (le_of_lt hP)
    linarith

/-- The paging-loop invariant for a full (`return_cnt='all'`) sorted
traversal of a static collection with distinct identities: entered with an
empty buffer, a strictly ascending remainder `todo` of the sorted matched
list and only full pages emitted so far, the loop emits the whole
remainder — full pages except for a final partial one — and terminates
within `todo.length` iterations. -/
theorem getterLoop_all_spec (store : List Document) (f : Document → Bool)
    (P : Int) (logSwitch : Bool) (hP : 0 < P)
    (hnd : (store.map docId).Nodup) :
    ∀ (fuel : Nat) (done todo : List Document)
      (pages : List (List Document)) (lb pid : Option Value) (cinit : Int),
      sortL docLt (store.filter f) = done ++ todo →
      pages.flatten = done →
      (∀ p ∈ pages, (p.length : Int) = P) →
      ((done = [] ∧ lb = none ∧ pid = none) ∨
        (∃ done' e, done = done' ++ [e] ∧ lb = some (docId e) ∧
          pid = some (docId e))) →
      cinit = (if countDocs store f < P * 50 then countDocs store f
        else P * 50) →
      todo ≠ [] →
      todo.length ≤ fuel →
      ((getterLoop store f none P (countDocs store f) true logSwitch fuel
          ⟨(done.length : Int), [], lb, pid, cinit, pages⟩).pages.flatten =
        sortL docLt (store.filter f)
      ∧ (∀ p ∈ (getterLoop store f none P (countDocs store f) true logSwitch
          fuel ⟨(done.length : Int), [], lb, pid, cinit,
            pages⟩).pages.dropLast, (p.length : Int) = P)
      ∧ (∀ p ∈ (getterLoop store f none P (countDocs store f) true logSwitch
          fuel ⟨(done.length : Int), [], lb, pid, cinit, pages⟩).pages,
          0 < p.length ∧ (p.length : Int) ≤ P)
      ∧ (getterLoop store f none P (countDocs store f) true logSwitch fuel
          ⟨(done.length : Int), [], lb, pid, cinit, pages⟩).outcome ≠
        GOutcome.fuelOut) := by
  intro fuel
  induction fuel with
  | zero =>
      intro done todo pages lb pid cinit hsplit hflat hfullp hlb hcinit
        htne hfuel
      exact absurd (List.length_eq_zero.mp (Nat.le_zero.mp hfuel)) htne
  | succ fuel ih =>
      intro done todo pages lb pid cinit hsplit hflat hfullp hlb hcinit
        htne hfuel
      have hN : countDocs store f =
          (done.length : Int) + (todo.length : Int) := by
        have h1 := congrArg List.length hsplit
        rw [sortL_length, List.length_append] at h1
        simp only [countDocs]
        push_cast
        omega
      have htl1 : 1 ≤ todo.length := by
        rcases todo with _ | ⟨t, ts⟩
        · exact absurd rfl htne
        · simp
      have htodo_sorted :
          sortL docLt (store.filter (mkFilters f lb)) = todo := by
        rcases hlb with ⟨hd, hlb', hpid'⟩ | ⟨done', e, hd, hlb', hpid'⟩
        · subst hlb'
          subst hd
          simpa using hsplit
        · subst hlb'
          subst hd
          refine sorted_suffix_eq store f hnd done' todo e ?_
          rw [hsplit, List.append_assoc, List.singleton_append]
      simp only [getterLoop]
      by_cases hterm : (todo.length : Int) ≤
          (if (done.length : Int) + P > countDocs store f then
            countDocs store f - (done.length : Int) else cinit)
      · -- terminal pass: the whole remainder is fetched
        have hbatch : findDocs store (mkFilters f lb) true
            (if (done.length : Int) + P > countDocs store f then
              countDocs store f - (done.length : Int) else cinit) none =
            todo := by
          simp only [findDocs, if_true]
          rw [htodo_sorted]
          exact applyLimit_all hterm
        rw [hbatch]
        obtain ⟨news, rem, pid2, heq, hjoin, hfull, hrem, hnil, hlast⟩ :=
          procItems_char P hP todo (done.length : Int) [] pid pages
            (by simpa using hP)
        rw [List.nil_append] at hjoin hnil
        rw [heq]
        dsimp only
        have hge : ((done.length : Int) + (todo.length : Int) ≥
            countDocs store f) := by omega
        have hfl : (if rem = [] then pages ++ news
            else (pages ++ news) ++ [rem]).flatten =
            sortL docLt (store.filter f) := by
          split
          · rw [List.flatten_append, hflat]
            rename_i hremnil
            rw [hremnil, List.append_nil] at hjoin
            rw [hjoin, hsplit]
          · rw [List.flatten_append, List.flatten_append, hflat]
            simp only [List.flatten_cons, List.flatten_nil, List.append_nil]
            rw [List.append_assoc, hjoin, hsplit]
        have hdl : ∀ p ∈ (if rem = [] then pages ++ news
            else (pages ++ news) ++ [rem]).dropLast,
            (p.length : Int) = P := by
          have hpn : ∀ p ∈ pages ++ news, (p.length : Int) = P := by
            intro p hp
            rcases List.mem_append.mp hp with h1 | h1
            · exact hfullp p h1
            · exact hfull p h1
          split
          · intro p hp
            exact hpn p ((List.dropLast_sublist _).subset hp)
          · intro p hp
            rw [List.dropLast_concat] at hp
            exact hpn p hp
        have hall : ∀ p ∈ (if rem = [] then pages ++ news
            else (pages ++ news) ++ [rem]),
            0 < p.length ∧ (p.length : Int) ≤ P := by
          have hpn : ∀ p ∈ pages ++ news,
              0 < p.length ∧ (p.length : Int) ≤ P := by
            intro p hp
            have hlp : (p.length : Int) = P := by
              rcases List.mem_append.mp hp with h1 | h1
              · exact hfullp p h1
              · exact hfull p h1
            constructor
            · omega
            · omega
          split
          · exact hpn
          · intro p hp
            rcases List.mem_append.mp hp with h1 | h1
            · exact hpn p h1
            · rcases List.mem_singleton.mp h1 with rfl
              rename_i hremne
              have : 0 < p.length := List.length_pos.mpr hremne
              constructor
              · exact this
              · omega
        split
        · exact ⟨hfl, hdl, hall, fun h => GOutcome.noConfusion h⟩
        · exact ⟨hfl, hdl, hall, fun h => GOutcome.noConfusion h⟩

      · -- another full cache batch, then recurse
        push_neg at hterm
        have hcond : ¬((done.length : Int) + P > countDocs store f) := by
          intro hc
          rw [if_pos hc] at hterm
          omega
        rw [if_neg hcond] at hterm ⊢
        rw [hcinit] at hterm ⊢
        have hNge : ¬(countDocs store f < P * 50) := by
          intro hlt
          rw [if_pos hlt] at hterm
          omega
        rw [if_neg hNge] at hterm ⊢
        -- now the cache is P * 50 and todo is longer than it
        have hc50 : (0 : Int) < P * 50 := by linarith
        have hbatch : findDocs store (mkFilters f lb) true (P * 50) none =
            todo.take (P * 50).toNat := by
          simp only [findDocs, if_true]
          rw [htodo_sorted]
          exact applyLimit_take hc50 todo
        rw [hbatch]
        obtain ⟨news, rem, pid2, heq, hjoin, hfull, hrem, hnil, hlast⟩ :=
          procItems_char P hP (todo.take (P * 50).toNat)
            (done.length : Int) [] pid pages (by simpa using hP)
        rw [List.nil_append] at hjoin hnil
        have hblen : ((todo.take (P * 50).toNat).length : Int) = P * 50 := by
          rw [List.length_take]
          omega
        have hflen : ((news.flatten.length : Int) =
            (news.length : Int) * P) := flatten_length_of_full P news hfull
        have hjlen : ((news.flatten.length : Int) + (rem.length : Int) =
            P * 50) := by
          have h1 := congrArg List.length hjoin
          rw [List.length_append] at h1
          omega
        have hrem0 : rem = [] := by
          have hk : (0 : Int) ≤ (news.length : Int) := by positivity
          have hr0 : (rem.length : Int) = 0 := by
            refine full_chunks_arith hP hk ?_ ?_ hrem
            · rw [← hflen]
              omega
            · positivity
          rw [← List.length_eq_zero]
          omega
        subst hrem0
        have hnewsne : news ≠ [] := by
          intro hcon
          subst hcon
          simp only [List.flatten_nil, List.length_nil] at hjlen
          omega
        obtain ⟨q, pfx, hjq, hpid2⟩ := hlast hnewsne
        rw [List.append_nil] at hjoin
        rw [heq]
        dsimp only
        rw [hpid2]
        rw [if_neg (by simp : ¬((logSwitch && (some (docId q)).isNone) = true))]
        have hlt2 : ¬((done.length : Int) +
            ((todo.take (P * 50).toNat).length : Int) ≥
            countDocs store f) := by
          rw [hblen]
          omega
        rw [if_neg hlt2]
        rw [if_pos (rfl : ([] : List Document) = [])]
        have hfc : ((done.length : Int) +
            ((todo.take (P * 50).toNat).length : Int)) =
            (((done ++ todo.take (P * 50).toNat).length : Int)) := by
          rw [List.length_append]
          push_cast
          ring
        rw [hfc]
        refine ih (done ++ todo.take (P * 50).toNat)
          (todo.drop (P * 50).toNat) (pages ++ news) (some (docId q))
          (some (docId q)) (P * 50) ?_ ?_ ?_ ?_ ?_ ?_ ?_
        · rw [hsplit, List.append_assoc, List.take_append_drop]
        · rw [List.flatten_append, hflat, hjoin]
        · intro p hp
          rcases List.mem_append.mp hp with h1 | h1
          · exact hfullp p h1
          · exact hfull p h1
        · right
          refine ⟨done ++ pfx, q, ?_, rfl, rfl⟩
          rw [hjoin] at hjq
          rw [hjq, List.append_assoc]
        · rw [if_neg hNge]
        · have h1 : 0 < (todo.drop (P * 50).toNat).length := by
            rw [List.length_drop]
            omega
          exact List.ne_nil_of_length_pos h1
        · rw [List.length_drop]
          omega


/-- Claim C1: for every filter and positive page size, the concatenation of
all pages yielded by a `paginate`-style traversal (`return_cnt='all'`,
`sort_query=True`) is a permutation of the matched documents — `count(F)`
documents, each identity exactly once, none skipped and none repeated —
with every page before the last exactly `page_size` long and every page
non-empty and at most `page_size` long; the loop itself terminates within
the modelled fuel. -/
theorem getter_paginate_exact (store : List Document) (f : Document → Bool)
    (P : Int) (logSwitch : Bool) (fuel : Nat) (hP : 0 < P)
    (hnd : (store.map docId).Nodup)
    (_hid : ∀ d ∈ store, hasKey d "_id" = true)
    (hfuel : (store.filter f).length < fuel) :
    PaginateExactSpec store f P logSwitch fuel := by
  rw [PaginateExactSpec]
  by_cases hcnt : countDocs store f = 0
  · have hfe : store.filter f = [] := by
      simp only [countDocs] at hcnt
      rw [← List.length_eq_zero]
      omega
    rw [getter, if_pos hcnt]
    refine ⟨by rw [hfe]; rfl, by simp, by rw [hfe]; rfl, ?_, ?_, ?_⟩
    · intro p hp
      cases hp
    · intro p hp
      cases hp
    · intro h
      cases h
  · simp only [getter, resolveRetCnt, if_true]
    rw [if_neg hcnt]
    have htne : sortL docLt (store.filter f) ≠ [] := by
      intro hcon
      have hz := congrArg List.length hcon
      rw [sortL_length] at hz
      simp only [countDocs] at hcnt
      simp only [List.length_nil] at hz
      exact hcnt (by rw [hz]; simp)
    obtain ⟨h1, h2, h3, h4⟩ := getterLoop_all_spec store f P logSwitch hP hnd
      fuel [] (sortL docLt (store.filter f)) [] none none
      (if countDocs store f < P * 50 then countDocs store f else P * 50)
      (by rw [List.nil_append]) rfl (by intro p hp; cases hp)
      (Or.inl ⟨rfl, rfl, rfl⟩) rfl htne
      (by rw [sortL_length]; omega)
    have hfnd : ((sortL docLt (store.filter f)).map docId).Nodup :=
      ((((sortL_perm docLt (store.filter f)).map docId)).nodup_iff).mpr
        (((List.filter_sublist store).map docId).nodup hnd)
    have hlen : (sortL docLt (store.filter f)).length =
      (store.filter f).length := sortL_length _ _
    exact ⟨h1.symm ▸ sortL_perm docLt (store.filter f),
      h1.symm ▸ hfnd, h1.symm ▸ hlen, h2, h3, h4⟩


/-- Witness for C1: three documents, `page_size` 2 — pages of sizes 2, 1. -/
theorem getter_paginate_exact_witness :
    PaginateExactSpec
      [[("_id", Value.vInt 2)], [("_id", Value.vInt 1)],
       [("_id", Value.vInt 3)]] (fun _ => true) 2 true 4 :=
  getter_paginate_exact _ _ _ _ _ (by decide) (by decide) (by decide)
    (by decide)

end DbSpec
